import Mathlib

/-!
Verification development for the PartyTracker repository: a browser-based
character sheet tracker.  The definitions below are shallow embeddings of
the JavaScript source (App.jsx, CharacterCard.jsx, CharacterForm.jsx and
src/hooks/useDnDAPI.jsx); the theorems settle the specification claims.

Strings are modelled as `List Char` at the core (wrapped into `String` at
the top level).  JavaScript `toLowerCase` is modelled on the ASCII range
only; this is observationally equivalent for every helper below because
every non-ASCII character is subsequently removed or replaced by the
regex steps, which only keep ASCII classes.
-/

namespace PartyTracker

/-! Character-class tests, mirroring the JS regex classes.  `isWSCh`
models the regex class `\s` (ASCII part), `isLowerAlnum` models
`[a-z0-9]`, `isUpperCh` models `[A-Z]`. -/

def isUpperCh (c : Char) : Bool := 65 ≤ c.toNat && c.toNat ≤ 90

def isWSCh (c : Char) : Bool :=
  c.toNat = 32 || c.toNat = 9 || c.toNat = 10 || c.toNat = 13 ||
  c.toNat = 11 || c.toNat = 12

def isLowerAlnum (c : Char) : Bool :=
  (97 ≤ c.toNat && c.toNat ≤ 122) || (48 ≤ c.toNat && c.toNat ≤ 57)

/-- Models `String.prototype.toLowerCase` on one ASCII character. -/
def jsLower (c : Char) : Char :=
  if isUpperCh c then Char.ofNat (c.toNat + 32) else c

/-- Models `str.toLowerCase()` (ASCII fragment). -/
def jsLowerL (l : List Char) : List Char := l.map jsLower

/-- Scans for the closing parenthesis of a non-greedy `\(.*?\)` regex
match: in JS regex, `.` does not match line terminators, so the match
only exists when a `)` occurs before any newline.  Returns the remainder
of the list after the closing `)` when the match exists. -/
def scanClose : List Char → Option (List Char)
  | [] => none
  | c :: rest =>
    if c = ')' then some rest
    else if c = '\n' ∨ c = '\r' then none
    else scanClose rest

/-- Worker for `dropParens`, structurally recursive on a fuel argument.
Every step consumes one unit of fuel and advances by at least one
character, so fuel equal to the input length always suffices and the
fuel-exhausted branch is unreachable from `dropParens`. -/
def dropParensF : Nat → List Char → List Char
  | 0, l => l
  | _, [] => []
  | fuel + 1, c :: rest =>
    if c = '(' then
      match scanClose rest with
      | some rest' => dropParensF fuel rest'
      | none => c :: dropParensF fuel rest
    else c :: dropParensF fuel rest

/-- Models `.replace(/\(.*?\)/g, "")`: removes each parenthetical from an
opening `(` through the next `)` (provided no line terminator intervenes,
as JS `.` does not cross newlines). -/
def dropParens (l : List Char) : List Char := dropParensF l.length l

/-- Models `.replace(/[^a-z0-9\s]/g, " ")` (applied after lowering). -/
def sanitize (l : List Char) : List Char :=
  l.map (fun c => if isLowerAlnum c || isWSCh c then c else ' ')

/-- Models `.replace(/\s+/g, " ")`: every maximal run of whitespace
becomes a single space. -/
def collapseWS : List Char → List Char
  | [] => []
  | c :: rest =>
    let r := collapseWS rest
    if isWSCh c then
      if r.head? = some ' ' then r else ' ' :: r
    else c :: r

/-- Models `String.prototype.trim` (ASCII whitespace). -/
def trimWS (l : List Char) : List Char :=
  ((l.dropWhile isWSCh).reverse.dropWhile isWSCh).reverse

/-- Embeds `normalize` from src/hooks/useDnDAPI.jsx: lowercase, strip
parentheticals, replace non-alphanumerics by spaces, collapse whitespace
and trim. -/
def normalizeL (l : List Char) : List Char :=
  trimWS (collapseWS (sanitize (dropParens (jsLowerL l))))

def normalize (s : String) : String := ⟨normalizeL s.data⟩

/-- Splits at single space characters, modelling `.split(" ")`. -/
def splitSp : List Char → List (List Char)
  | [] => [[]]
  | c :: rest =>
    let r := splitSp rest
    if c = ' ' then [] :: r
    else
      match r with
      | w :: ws => (c :: w) :: ws
      | [] => [[c]]

/-- Embeds `tokens` from src/hooks/useDnDAPI.jsx:
`normalize(s).split(" ").filter(Boolean)`. -/
def tokensL (l : List Char) : List (List Char) :=
  (splitSp (normalizeL l)).filter (fun w => ¬ w.isEmpty)

def tokens (s : String) : List String := (tokensL s.data).map (fun w => ⟨w⟩)

/-- Embeds `tokenScore` from src/hooks/useDnDAPI.jsx: the number of
distinct tokens of `a` (JS builds a `Set` of them) that also occur among
the tokens of `b`. -/
def tokenScoreL (a b : List Char) : Nat :=
  ((tokensL a).dedup.filter (fun t => t ∈ tokensL b)).length

def tokenScore (a b : String) : Nat := tokenScoreL a.data b.data

/-- Models `needle` being a prefix of `hay`, as used by `includes`. -/
def startsWithL : List Char → List Char → Bool
  | [], _ => true
  | _ :: _, [] => false
  | n :: ns, h :: hs => n = h && startsWithL ns hs

/-- Models `hay.includes(needle)` (substring containment). -/
def hasSubL (needle : List Char) : List Char → Bool
  | [] => needle.isEmpty
  | c :: rest => startsWithL needle (c :: rest) || hasSubL needle rest

def hasSub (needle hay : String) : Bool := hasSubL needle.data hay.data

/-- Models the slug step `.replace(/[^a-z0-9\s-]/g, "")` (after
lowering): characters outside the class are deleted outright. -/
def slugSanitize (l : List Char) : List Char :=
  l.filter (fun c => isLowerAlnum c || isWSCh c || c = '-')

/-- Models the slug step `.replace(/\s+/g, "-")`. -/
def slugDashes : List Char → List Char
  | [] => []
  | c :: rest =>
    let r := slugDashes rest
    if isWSCh c then
      match rest with
      | c' :: _ => if isWSCh c' then r else '-' :: r
      | [] => '-' :: r
    else c :: r

/-- Embeds the slug construction of useDnDAPI.jsx:
`name.toLowerCase().replace(/[^a-z0-9\s-]/g, "").replace(/\s+/g, "-")`. -/
def slugOf (name : String) : String :=
  ⟨slugDashes (slugSanitize (jsLowerL name.data))⟩

/-! JavaScript object model.  A JS object literal is an association list
of string keys in insertion order; a well-formed object has no duplicate
keys.  Values are a type parameter: the claims about App.jsx treat the
field values of a character record as opaque. -/

abbrev Obj (V : Type) := List (String × V)

/-- Models property read `o[k]`, `none` standing for `undefined`. -/
def lookupV {V : Type} (o : Obj V) (k : String) : Option V :=
  (o.find? (fun kv => kv.1 = k)).map (·.2)

def keysOf {V : Type} (o : Obj V) : List String := o.map (·.1)

/-- Models the spread update `{ ...o, [k]: v }`: an existing key keeps
its position and gets the new value, a new key is appended. -/
def setKey {V : Type} (o : Obj V) (k : String) (v : V) : Obj V :=
  if k ∈ keysOf o then
    o.map (fun kv => if kv.1 = k then (k, v) else kv)
  else o ++ [(k, v)]

/-- Models the merge `{ ...c, ...u }`: keys of `c` keep their position
(with `u` values overriding), keys only in `u` are appended. -/
def mergeObj {V : Type} (c u : Obj V) : Obj V :=
  c.map (fun kv =>
    match lookupV u kv.1 with
    | some v => (kv.1, v)
    | none => kv) ++
  u.filter (fun kv => kv.1 ∉ keysOf c)

/-- Models `c.name` on a character record. -/
def nameOf {V : Type} (c : Obj V) : Option V := lookupV c "name"

/-! Operations of App.jsx on the characters collection. -/

/-- Embeds App.addCharacter: `setCharacters([...characters, char])`. -/
def addCharacter {V : Type} (ch : Obj V) (cs : List (Obj V)) : List (Obj V) :=
  cs ++ [ch]

/-- Embeds App.deleteCharacter:
`characters.filter((c) => c.name !== name)`. -/
def deleteCharacter {V : Type} [DecidableEq V] (name : V) (cs : List (Obj V)) :
    List (Obj V) :=
  cs.filter (fun c => ¬ nameOf c = some name)

/-- Embeds App.updateCharacter:
`prev.map((c) => (c.name === name ? { ...c, ...updatedData } : c))`. -/
def updateCharacter {V : Type} [DecidableEq V] (name : V) (upd : Obj V)
    (cs : List (Obj V)) : List (Obj V) :=
  cs.map (fun c => if nameOf c = some name then mergeObj c upd else c)

/-- States that the collection holds at most one record per name: no two
records carry the same present `name` field. -/
def UniqueNames {V : Type} (cs : List (Obj V)) : Prop :=
  cs.Pairwise (fun a b => ¬ (nameOf a ≠ none ∧ nameOf a = nameOf b))

/-! Handlers of CharacterCard.jsx. -/

/-- Models `x || 0` on an optional numeric property: `undefined` and `0`
are both falsy and both yield `0`, so this is `getD 0`. -/
def jsOrZero : Option Int → Int
  | none => 0
  | some v => v

/-- Embeds CharacterCard.adjustStat:
`{...prev, [stat]: Math.max(0, (prev[stat] || 0) + delta)}`. -/
def adjustStat (stats : Obj Int) (stat : String) (delta : Int) : Obj Int :=
  setKey stats stat (max 0 (jsOrZero (lookupV stats stat) + delta))

/-- Iterates adjustStat over a sequence of button presses. -/
def applyStats (ops : List (String × Int)) (stats : Obj Int) : Obj Int :=
  ops.foldl (fun s op => adjustStat s op.1 op.2) stats

/-- Embeds CharacterCard.handleEquipChange:
`setEquipment((prev) => ({ ...prev, [slot]: value }))`. -/
def handleEquipChange (equipment : Obj String) (slot value : String) :
    Obj String :=
  setKey equipment slot value

/-- Models `val.trim()` (ASCII whitespace fragment of JS trim). -/
def jsTrim (s : String) : String := ⟨trimWS s.data⟩

/-- Embeds CharacterCard.handleAdd: appends the trimmed value when it is
non-empty and not already present. -/
def handleAdd (list : List String) (val : String) : List String :=
  let trimmed := jsTrim val
  if trimmed ≠ "" ∧ ¬ list.contains trimmed then list ++ [trimmed] else list

/-- Embeds CharacterCard.handleRemove: `list.filter((x) => x !== val)`. -/
def handleRemove (list : List String) (val : String) : List String :=
  list.filter (fun x => x ≠ val)

/-! Data model of the dnd5eapi JSON fragments that the app inspects.
Optional fields model possibly-absent JSON properties; `none` is the
falsy `undefined`.  `damage_type` holds the `name` of the damage-type
object when that object is present. -/

structure ArmorClassData where
  base : Option Int := none
  dex_bonus : Bool := false
  max_bonus : Option Int := none
deriving DecidableEq, Repr

structure DamageData where
  damage_dice : Option String := none
  damage_type : Option String := none
deriving DecidableEq, Repr

structure CostData where
  quantity : Option Int := none
  unit : Option String := none
deriving DecidableEq, Repr

structure ApiDoc where
  name : Option String := none
  desc : Option (List String) := none
  equipment_category : Option String := none
  armor_class : Option ArmorClassData := none
  str_minimum : Option Int := none
  stealth_disadvantage : Bool := false
  damage : Option DamageData := none
  weight : Option Int := none
  cost : Option CostData := none
deriving DecidableEq, Repr

/-! Armor-class derivation, from the AC `useEffect` of CharacterCard. -/

/-- Embeds `getModifier`: `Math.floor((val - 10) / 2)` (floor, not
truncation, so `Int.fdiv`). -/
def getModifier (val : Int) : Int := (val - 10).fdiv 2

/-- Models `x || d` on an optional number: absent and `0` are falsy. -/
def jsOrIntD (x : Option Int) (d : Int) : Int :=
  match x with
  | none => d
  | some v => if v = 0 then d else v

/-- Models `equipment.offHand?.toLowerCase().includes("shield")`; an
absent slot gives `undefined`, which is falsy. -/
def shieldInName (offHand : Option String) : Bool :=
  match offHand with
  | none => false
  | some s => hasSubL "shield".data (jsLowerL s.data)

/-- Embeds the AC `useEffect` of CharacterCard.jsx: base 10 plus dex
modifier, replaced by the armor's `armor_class.base` when that is
truthy, plus the (possibly capped) dex bonus when `dex_bonus` holds,
plus the off-hand `armor_class.base` when truthy, or else a flat `+2`
when the off-hand name mentions a shield and no off-hand data exists. -/
def computeAC (dexterity : Option Int) (armorData offhandData : Option ApiDoc)
    (offHand : Option String) : Int :=
  let base0 := 10 + getModifier (jsOrIntD dexterity 10)
  let afterArmor :=
    match armorData with
    | none => base0
    | some ad =>
      match ad.armor_class with
      | none => base0
      | some acData =>
        let b := jsOrIntD acData.base base0
        if acData.dex_bonus then
          let dexMod := getModifier (jsOrIntD dexterity 10)
          b + (match acData.max_bonus with
               | none => dexMod
               | some m => if m = 0 then dexMod else min dexMod m)
        else b
  let offBonus : Int :=
    match offhandData with
    | some od =>
      match od.armor_class with
      | some acd =>
        match acd.base with
        | some b => if b = 0 then 0 else b
        | none => 0
      | none => 0
    | none => if shieldInName offHand then 2 else 0
  afterArmor + offBonus

/-- Formalizes claim C1 exactly as stated: the dexterity score defaults
to 10 only when it is absent, and the dexterity bonus is capped at
`max_bonus` whenever `max_bonus` is present (the claim's "set"). -/
def claimAC (dexterity : Option Int) (armorData offhandData : Option ApiDoc)
    (offHand : Option String) : Int :=
  let dex := match dexterity with | none => 10 | some d => d
  let dexMod := getModifier dex
  let afterArmor :=
    match armorData with
    | none => 10 + dexMod
    | some ad =>
      match ad.armor_class with
      | none => 10 + dexMod
      | some acData =>
        let start :=
          match acData.base with
          | none => 10 + dexMod
          | some b => if b = 0 then 10 + dexMod else b
        if acData.dex_bonus then
          start + (match acData.max_bonus with
                   | none => dexMod
                   | some m => min dexMod m)
        else start
  let offBonus : Int :=
    match offhandData with
    | some od =>
      match od.armor_class with
      | some acd =>
        match acd.base with
        | some b => if b = 0 then 0 else b
        | none => 0
      | none => 0
    | none => if shieldInName offHand then 2 else 0
  afterArmor + offBonus

/-- Formalizes claim C1 as amended: identical to the claim except that
the dexterity score defaults to 10 whenever it is falsy (absent or 0)
and the `max_bonus` cap applies only when `max_bonus` is truthy. -/
def claimACAmended (dexterity : Option Int)
    (armorData offhandData : Option ApiDoc) (offHand : Option String) : Int :=
  let dex := jsOrIntD dexterity 10
  let dexMod := getModifier dex
  let afterArmor :=
    match armorData with
    | none => 10 + dexMod
    | some ad =>
      match ad.armor_class with
      | none => 10 + dexMod
      | some acData =>
        let start :=
          match acData.base with
          | none => 10 + dexMod
          | some b => if b = 0 then 10 + dexMod else b
        if acData.dex_bonus then
          start + (match acData.max_bonus with
                   | none => dexMod
                   | some m => if m = 0 then dexMod else min dexMod m)
        else start
  let offBonus : Int :=
    match offhandData with
    | some od =>
      match od.armor_class with
      | some acd =>
        match acd.base with
        | some b => if b = 0 then 0 else b
        | none => 0
      | none => 0
    | none => if shieldInName offHand then 2 else 0
  afterArmor + offBonus

/-! The name-lookup routine of src/hooks/useDnDAPI.jsx.  The network is
modelled as a fixed oracle: `fetchDoc endpoint key` is the parsed JSON
of a successful `GET endpoint/key` and `none` models `!response.ok` (or
a network failure); `fetchIndex endpoint` is the `results` array of the
endpoint index (already folded through `listJson.results || []`).  The
module-level index cache only avoids repeated network calls; with a
fixed oracle it cannot change any result, so it is not modelled.  Error
messages are abbreviated (the originals interpolate HTTP statuses,
which the oracle does not carry). -/

structure IdxEntry where
  name : String
  index : String
deriving DecidableEq, Repr

structure ApiWorld where
  fetchDoc : String → String → Option ApiDoc
  fetchIndex : String → Option (List IdxEntry)

/-- Embeds the exact-match step of the index fallback:
`results.find((r) => normalize(r.name) === normName ||
String(r.index).toLowerCase() === slug)`. -/
def exactIndexMatch (results : List IdxEntry) (name slug : String) :
    Option IdxEntry :=
  results.find? (fun r =>
    normalize r.name = normalize name ∨ (⟨jsLowerL r.index.data⟩ : String) = slug)

/-- Embeds the `best`/`bestScore` loop of the index fallback: a strictly
greater token-overlap score replaces the running best. -/
def scoreLoop (name : String) :
    List IdxEntry → Option IdxEntry → Nat → Option IdxEntry × Nat
  | [], best, bestScore => (best, bestScore)
  | r :: rs, best, bestScore =>
    let score := tokenScore r.name name
    if score > bestScore then scoreLoop name rs (some r) score
    else scoreLoop name rs best bestScore

/-- Embeds the acceptance test after the loop:
`if (bestScore > 0) match = best`. -/
def bestTokenMatch (results : List IdxEntry) (name : String) :
    Option IdxEntry :=
  let p := scoreLoop name results none 0
  if p.2 > 0 then p.1 else none

/-- Embeds the whole matching step of the index fallback: exact
normalized-name or index match first, token-overlap scoring otherwise. -/
def findIndexMatch (results : List IdxEntry) (name slug : String) :
    Option IdxEntry :=
  match exactIndexMatch results name slug with
  | some m => some m
  | none => bestTokenMatch results name

/-- Models `!json.desc || json.desc.length === 0` (an absent `desc` is
falsy; an empty array is truthy but caught by the length test). -/
def descMissing (d : ApiDoc) : Bool :=
  match d.desc with
  | none => true
  | some l => l.isEmpty

/-- The `magicKeywords` list of useDnDAPI.jsx. -/
def magicKeywords : List String :=
  ["potion", "ring", "wand", "staff", "scroll", "amulet", "cloak",
   "boots", "stone", "orb", "gem", "of", "rod"]

/-- Embeds `magicKeywords.some((kw) => low.includes(kw))` on the
lowercased name. -/
def looksMagic (name : String) : Bool :=
  magicKeywords.any (fun kw => hasSubL kw.data (jsLowerL name.data))

/-- Embeds the conditional magic-items fallback: for equipment results
without a description, and only when the name looks magic-like, the
magic-items document for the same slug replaces the data provided it
carries a `desc` field. -/
def magicStep (w : ApiWorld) (endpoint name slug : String) (json : ApiDoc) :
    ApiDoc :=
  if endpoint = "equipment" ∧ descMissing json then
    if looksMagic name then
      match w.fetchDoc "magic-items" slug with
      | some alt => if alt.desc.isSome then alt else json
      | none => json
    else json
  else json

/-- Embeds the body of `fetchData` in useDnDAPI.jsx as a function of the
network oracle: primary fetch of the slug, index fallback with matching
on failure, then the conditional magic-items step; every failing path
ends in a thrown error, modelled as `Except.error`. -/
def lookupName (w : ApiWorld) (endpoint name : String) : Except String ApiDoc :=
  let slug := slugOf name
  match w.fetchDoc endpoint slug with
  | some json => .ok (magicStep w endpoint name slug json)
  | none =>
    match w.fetchIndex endpoint with
    | none => .error "Index fetch failed"
    | some results =>
      match findIndexMatch results name slug with
      | some m =>
        match w.fetchDoc endpoint m.index with
        | some json => .ok (magicStep w endpoint name slug json)
        | none => .error "Fallback HTTP error"
      | none => .error "Primary fetch failed"

/-! Claim-side formalization of the lookup routine, written from the
words of claim C2. -/

/-- Formalizes the index-scan selection described by claim C2: an entry
whose normalized name equals the normalized query or whose lowercased
index equals the slug; otherwise the entry with the maximum
token-overlap score with the query, accepted only when at least one
token overlaps. -/
def specSelect (results : List IdxEntry) (name slug : String) :
    Option IdxEntry :=
  match results.find? (fun r =>
    normalize r.name = normalize name ∨ (⟨jsLowerL r.index.data⟩ : String) = slug) with
  | some e => some e
  | none =>
    let m := (results.map (fun r => tokenScore r.name name)).foldr max 0
    if m = 0 then none
    else results.find? (fun r => tokenScore r.name name = m)

/-- Formalizes the final step of claim C2 as stated: for equipment
results lacking a description, the magic-items lookup of the same slug
is attempted unconditionally, its result replacing the data only when
it carries a `desc` field. -/
def claimMagicStep (w : ApiWorld) (endpoint slug : String) (json : ApiDoc) :
    ApiDoc :=
  if endpoint = "equipment" ∧ descMissing json then
    match w.fetchDoc "magic-items" slug with
    | some alt => if alt.desc.isSome then alt else json
    | none => json
  else json

/-- Formalizes the lookup of claim C2 exactly as stated. -/
def claimLookup (w : ApiWorld) (endpoint name : String) :
    Except String ApiDoc :=
  let slug := slugOf name
  match w.fetchDoc endpoint slug with
  | some json => .ok (claimMagicStep w endpoint slug json)
  | none =>
    match w.fetchIndex endpoint with
    | none => .error "Index fetch failed"
    | some results =>
      match specSelect results name slug with
      | some m =>
        match w.fetchDoc endpoint m.index with
        | some json => .ok (claimMagicStep w endpoint slug json)
        | none => .error "Fallback HTTP error"
      | none => .error "Primary fetch failed"

/-- Formalizes the final step of claim C2 as amended: the magic-items
lookup is attempted only when the lowercased name contains one of the
magic-like keywords. -/
def claimMagicStepAmended (w : ApiWorld) (endpoint name slug : String)
    (json : ApiDoc) : ApiDoc :=
  if endpoint = "equipment" ∧ descMissing json then
    if looksMagic name then claimMagicStep w endpoint slug json else json
  else json

/-- Formalizes the lookup of claim C2 as amended. -/
def claimLookupAmended (w : ApiWorld) (endpoint name : String) :
    Except String ApiDoc :=
  let slug := slugOf name
  match w.fetchDoc endpoint slug with
  | some json => .ok (claimMagicStepAmended w endpoint name slug json)
  | none =>
    match w.fetchIndex endpoint with
    | none => .error "Index fetch failed"
    | some results =>
      match specSelect results name slug with
      | some m =>
        match w.fetchDoc endpoint m.index with
        | some json => .ok (claimMagicStepAmended w endpoint name slug json)
        | none => .error "Fallback HTTP error"
      | none => .error "Primary fetch failed"

/-! The tooltip renderer `getTooltipContent` of src/hooks/useDnDAPI.jsx.
The rendered JSX is modelled by the `Tooltip` shape carrying the
assembled text; template-literal layout whitespace is elided and pieces
are joined in source order. -/

inductive Tooltip where
  | loadingSpinner
  | errorLine (msg : String)
  | noData
  | descBlock (html : String)
  | equipBlock (html : String)
  | noInfo
deriving DecidableEq, Repr

structure TooltipInput where
  loading : Bool := false
  data : Option ApiDoc := none
  error : Option String := none
deriving DecidableEq, Repr

/-- Models truthiness of the `error` string: the empty string is falsy. -/
def errTruthy (e : Option String) : Bool :=
  match e with
  | none => false
  | some s => ¬ s.isEmpty

/-- Models `data.desc && Array.isArray(data.desc) && data.desc.length > 0`. -/
def descNonEmpty (d : ApiDoc) : Bool :=
  match d.desc with
  | none => false
  | some l => ¬ l.isEmpty

/-- Models truthiness of `data.equipment_category` (an object is truthy
whenever present). -/
def equipTruthy (d : ApiDoc) : Bool := d.equipment_category.isSome

/-- Models `data.desc.join("<br/><br/>")`. -/
def joinDesc (l : List String) : String := String.intercalate "<br/><br/>" l

/-- Models interpolating a possibly-absent number into a template
literal: `undefined` prints as the string "undefined". -/
def jsShowInt (x : Option Int) : String :=
  match x with
  | none => "undefined"
  | some n => toString n

/-- Models truthiness of an optional string (empty string falsy). -/
def strTruthy (x : Option String) : Bool :=
  match x with
  | none => false
  | some s => ¬ s.isEmpty

/-- Models truthiness of an optional number (`0` falsy). -/
def intTruthy (x : Option Int) : Bool :=
  match x with
  | none => false
  | some n => n ≠ 0

/-- Embeds the equipment branch of getTooltipContent.  The guarded
pieces are assembled in source order; the one unguarded access is
`data.damage.damage_type.name`, evaluated whenever
`data.damage && data.damage.damage_dice` holds — when the damage object
lacks `damage_type` this dereferences `undefined` and throws, modelled
as `Except.error`. -/
def equipBranch (d : ApiDoc) : Except String Tooltip :=
  let ac :=
    match d.armor_class with
    | some acd =>
      "<p><strong>Base AC:</strong> " ++ jsShowInt acd.base ++
      (if acd.dex_bonus then " + Dex modifier" else "") ++ "</p>"
    | none => ""
  let strReq :=
    if intTruthy d.str_minimum then
      "<p><strong>Strength Requirement:</strong> " ++ jsShowInt d.str_minimum ++ "</p>"
    else ""
  let stealth :=
    if d.stealth_disadvantage then
      "<p><strong>Stealth:</strong> Disadvantage on Stealth checks</p>"
    else ""
  let dmgE : Except String String :=
    match d.damage with
    | some dmg =>
      if strTruthy dmg.damage_dice then
        match dmg.damage_type with
        | some tyName =>
          .ok ("<p><strong>Damage:</strong> " ++ (dmg.damage_dice.getD "") ++
               " " ++ tyName ++ "</p>")
        | none =>
          .error "TypeError: Cannot read properties of undefined (reading name)"
      else .ok ""
    | none => .ok ""
  match dmgE with
  | .error e => .error e
  | .ok dmg =>
    let weight :=
      if intTruthy d.weight then
        "<p><strong>Weight:</strong> " ++ jsShowInt d.weight ++ " lb.</p>"
      else ""
    let cost :=
      match d.cost with
      | some c =>
        "<p><strong>Cost:</strong> " ++ jsShowInt c.quantity ++ " " ++
        (c.unit.getD "undefined") ++ "</p>"
      | none => ""
    let hasStats :=
      ¬ ac.isEmpty ∨ ¬ strReq.isEmpty ∨ ¬ stealth.isEmpty ∨
      ¬ dmg.isEmpty ∨ ¬ weight.isEmpty ∨ ¬ cost.isEmpty
    let descHtml :=
      if descNonEmpty d then
        "<div class=\"mt-2\">" ++ joinDesc (d.desc.getD []) ++ "</div>"
      else ""
    .ok (.equipBlock
      (ac ++ strReq ++ stealth ++ dmg ++ weight ++ cost ++
       (if hasStats then "" else
         "<p><em>No mechanical stats found for this item.</em></p>") ++
       descHtml))

/-- Embeds getTooltipContent of src/hooks/useDnDAPI.jsx: loading
spinner, error line, `No data found.` placeholder, primary description
for non-equipment, mechanical-stats block for equipment, and the final
`No information available for this entry.` placeholder.  The result is
`Except` because the equipment branch can throw. -/
def getTooltipContent (inp : TooltipInput) : Except String Tooltip :=
  if inp.loading then .ok .loadingSpinner
  else if errTruthy inp.error then .ok (.errorLine (inp.error.getD ""))
  else
    match inp.data with
    | none => .ok .noData
    | some d =>
      if descNonEmpty d ∧ ¬ equipTruthy d then .ok (.descBlock (joinDesc (d.desc.getD [])))
      else if equipTruthy d then equipBranch d
      else .ok .noInfo

/-- The `{ data, loading, error }` triple returned by the hook. -/
structure HookState where
  data : Option ApiDoc
  error : Option String
  loading : Bool
deriving DecidableEq, Repr

/-- Models the hook state after a completed `fetchData` run starting
from the initial state: success stores the document, the `catch` stores
the error message, and the `finally` always clears `loading`. -/
def runFetch (w : ApiWorld) (endpoint name : String) : HookState :=
  match lookupName w endpoint name with
  | .ok j => { data := some j, error := none, loading := false }
  | .error e => { data := none, error := some e, loading := false }

/-! Debounced synchronization, from the sync `useEffect` of
CharacterCard.jsx.  Each edit re-runs the effect, which schedules
`onUpdate` 300 ms later; the cleanup cancels the previously scheduled
call.  Edits are processed in chronological order; a pending timer fires
exactly when its deadline precedes the next edit, and the last pending
timer fires unopposed. -/

def debounceRun {α : Type} : List (Nat × α) → Option (Nat × α) → List (Nat × α)
  | [], pending => pending.toList
  | (t, d) :: rest, pending =>
    (match pending with
     | some (dl, pd) => if dl < t then [(dl, pd)] else []
     | none => []) ++ debounceRun rest (some (t + 300, d))

/-- The synchronizations emitted for a chronological list of edits
`(time, data)`: each emission is `(fire time, synced data)`. -/
def debounceEmissions {α : Type} (edits : List (Nat × α)) : List (Nat × α) :=
  debounceRun edits none

/-- Concrete network oracle exercising the lookup routine: the
equipment document for "club" has no description, while the magic-items
endpoint knows a described "club" document.  The name "club" contains
none of the magic keywords. -/
def clubWorld : ApiWorld where
  fetchDoc := fun endpoint slug =>
    if endpoint = "equipment" ∧ slug = "club" then some { desc := none }
    else if endpoint = "magic-items" ∧ slug = "club" then
      some { desc := some ["A magic club."] }
    else none
  fetchIndex := fun _ => none

instance {V : Type} [DecidableEq V] (cs : List (Obj V)) :
    Decidable (UniqueNames cs) := by
  unfold UniqueNames; exact List.instDecidablePairwise cs

/-- The shape on which the tooltip equipment branch throws: a damage
object carrying truthy `damage_dice` but no `damage_type` object. -/
def hazardDoc (d : ApiDoc) : Bool :=
  match d.damage with
  | none => false
  | some dmg => strTruthy dmg.damage_dice && dmg.damage_type.isNone

/-- Lifts `hazardDoc` over the optional `data` field. -/
def dataHazard (o : Option ApiDoc) : Bool :=
  match o with
  | none => false
  | some d => hazardDoc d

/-- Lifts `descNonEmpty` over the optional `data` field. -/
def dataDescNonEmpty (o : Option ApiDoc) : Bool :=
  match o with
  | none => false
  | some d => descNonEmpty d

/-- Lifts `equipTruthy` over the optional `data` field. -/
def dataEquip (o : Option ApiDoc) : Bool :=
  match o with
  | none => false
  | some d => equipTruthy d

/-! General lemmas about the object model. -/

theorem lookupV_cons {V : Type} (a : String × V) (o : Obj V) (k : String) :
    lookupV (a :: o) k = if a.1 = k then some a.2 else lookupV o k := by
  by_cases h : a.1 = k <;> simp [lookupV, List.find?_cons, h]

theorem lookupV_append {V : Type} (x y : Obj V) (k : String) :
    lookupV (x ++ y) k =
      match lookupV x k with
      | some v => some v
      | none => lookupV y k := by
  induction x with
  | nil => simp [lookupV]
  | cons a xs ih =>
    by_cases h : a.1 = k <;>
      simp [List.cons_append, lookupV_cons, h, ih]

theorem keysOf_cons {V : Type} (a : String × V) (o : Obj V) :
    keysOf (a :: o) = a.1 :: keysOf o := rfl

theorem lookupV_eq_none {V : Type} (o : Obj V) (k : String) :
    lookupV o k = none ↔ k ∉ keysOf o := by
  induction o with
  | nil => simp [lookupV, keysOf]
  | cons a os ih =>
    rw [lookupV_cons, keysOf_cons]
    by_cases h : a.1 = k
    · simp [h]
    · have h' : ¬ k = a.1 := fun hh => h hh.symm
      simp [h, h', ih]

theorem lookupV_map_set {V : Type} (o : Obj V) (k : String) (v : V)
    (hm : k ∈ keysOf o) :
    lookupV (o.map (fun kv => if kv.1 = k then (k, v) else kv)) k = some v := by
  induction o with
  | nil => simp [keysOf] at hm
  | cons a os ih =>
    by_cases h : a.1 = k
    · simp [lookupV_cons, h]
    · have hk : k ∈ keysOf os := by
        rcases List.mem_cons.mp (keysOf_cons a os ▸ hm) with h1 | h2
        · exact absurd h1.symm h
        · exact h2
      simp [lookupV_cons, h, ih hk]

theorem lookupV_map_set_other {V : Type} (o : Obj V) (k : String) (v : V)
    (k' : String) (hne : k' ≠ k) :
    lookupV (o.map (fun kv => if kv.1 = k then (k, v) else kv)) k' =
      lookupV o k' := by
  have h' : ¬ k = k' := fun hh => hne hh.symm
  induction o with
  | nil => simp
  | cons a os ih =>
    by_cases h : a.1 = k
    · simp [lookupV_cons, h, h', ih]
    · simp [lookupV_cons, h, ih]

theorem lookupV_setKey_self {V : Type} (o : Obj V) (k : String) (v : V) :
    lookupV (setKey o k v) k = some v := by
  unfold setKey
  by_cases hm : k ∈ keysOf o
  · simpa [hm] using lookupV_map_set o k v hm
  · rw [if_neg hm, lookupV_append,
      (lookupV_eq_none o k).mpr hm]
    simp [lookupV_cons]

theorem lookupV_setKey_other {V : Type} (o : Obj V) (k : String) (v : V)
    (k' : String) (hne : k' ≠ k) :
    lookupV (setKey o k v) k' = lookupV o k' := by
  unfold setKey
  by_cases hm : k ∈ keysOf o
  · simpa [hm] using lookupV_map_set_other o k v k' hne
  · rw [if_neg hm, lookupV_append]
    have h' : ¬ k = k' := fun hh => hne hh.symm
    have hone : lookupV [(k, v)] k' = none := by
      rw [lookupV_cons, if_neg h']; rfl
    cases h : lookupV o k' <;> simp [hone, h]

theorem keysOf_setKey {V : Type} (o : Obj V) (k : String) (v : V) :
    keysOf (setKey o k v) = if k ∈ keysOf o then keysOf o else keysOf o ++ [k] := by
  unfold setKey
  by_cases hm : k ∈ keysOf o
  · rw [if_pos hm, if_pos hm]
    unfold keysOf
    rw [List.map_map]
    refine List.map_congr_left ?_
    intro kv _
    by_cases h : kv.1 = k <;> simp [h]
  · rw [if_neg hm, if_neg hm]
    simp [keysOf]

theorem keysOf_setKey_nodup {V : Type} (o : Obj V) (k : String) (v : V)
    (hnd : (keysOf o).Nodup) : (keysOf (setKey o k v)).Nodup := by
  rw [keysOf_setKey]
  by_cases hm : k ∈ keysOf o
  · simpa [hm] using hnd
  · simp [hm, List.nodup_append, hnd]

theorem mem_setKey {V : Type} (o : Obj V) (k : String) (v : V) :
    ∀ kv ∈ setKey o k v, kv ∈ o ∨ kv = (k, v) := by
  intro kv hkv
  unfold setKey at hkv
  by_cases hm : k ∈ keysOf o
  · rw [if_pos hm] at hkv
    rcases List.mem_map.mp hkv with ⟨a, ha, rfl⟩
    by_cases h : a.1 = k <;> simp [h, ha]
  · rw [if_neg hm] at hkv
    rcases List.mem_append.mp hkv with h1 | h2
    · exact Or.inl h1
    · exact Or.inr (List.mem_singleton.mp h2)

theorem lookupV_filter_keys {V : Type} (u c : Obj V) (k : String)
    (hk : k ∉ keysOf c) :
    lookupV (u.filter (fun kv => kv.1 ∉ keysOf c)) k = lookupV u k := by
  induction u with
  | nil => rfl
  | cons b us ih =>
    rw [List.filter_cons]
    by_cases hb : b.1 ∈ keysOf c
    · have hd : (decide (b.1 ∉ keysOf c)) = false := by simp [hb]
      have h : ¬ b.1 = k := fun hh => hk (hh ▸ hb)
      rw [hd]
      simp only [Bool.false_eq_true, if_false]
      rw [ih, lookupV_cons, if_neg h]
    · have hd : (decide (b.1 ∉ keysOf c)) = true := by simp [hb]
      rw [hd]
      simp only [if_true]
      rw [lookupV_cons, lookupV_cons]
      by_cases h : b.1 = k
      · rw [if_pos h, if_pos h]
      · rw [if_neg h, if_neg h, ih]

theorem lookupV_mergeObj {V : Type} (c u : Obj V) (k : String) :
    lookupV (mergeObj c u) k =
      match lookupV u k with
      | some v => some v
      | none => lookupV c k := by
  unfold mergeObj
  rw [lookupV_append]
  have P1 : lookupV (c.map fun kv =>
      match lookupV u kv.1 with
      | some v => (kv.1, v)
      | none => kv) k
      = match lookupV c k with
        | some vc => some (match lookupV u k with | some v => v | none => vc)
        | none => none := by
    induction c with
    | nil => simp [lookupV]
    | cons a cs ih =>
      rcases a with ⟨ak, av⟩
      by_cases h : ak = k
      · subst h
        cases hu : lookupV u ak <;> simp [lookupV_cons, hu]
      · cases hu : lookupV u ak <;> simp [lookupV_cons, h, hu, ih]
  rw [P1]
  cases hc : lookupV c k with
  | some vc => cases hu : lookupV u k <;> simp [hu]
  | none =>
    have hk : k ∉ keysOf c := (lookupV_eq_none c k).mp hc
    rw [lookupV_filter_keys u c k hk]
    cases hu : lookupV u k <;> simp [hu]

theorem nameOf_mergeObj {V : Type} (c u : Obj V)
    (h : lookupV u "name" = none) : nameOf (mergeObj c u) = nameOf c := by
  unfold nameOf
  rw [lookupV_mergeObj, h]

/-! Claim C1: armor-class derivation. -/

/-- Claim C1, counterexample: the claim states that with no armor data
the displayed AC is `10 + floor((dexterity - 10) / 2)` with dexterity
defaulting to 10 only when absent.  At a present dexterity of 0 (a
reachable state, since adjustStat floors stats at 0) the code computes
`stats.dexterity || 10 = 10` and displays AC 10, while the claimed
formula yields 5. -/
theorem computeAC_claim_counterexample :
    computeAC (some 0) none none none = 10 ∧
    claimAC (some 0) none none none = 5 ∧
    computeAC (some 0) none none none ≠ claimAC (some 0) none none none := by
  decide

/-- Claim C1 (amended): the AC computed by the CharacterCard effect
agrees with the claimed derivation once the dexterity default and the
`max_bonus` cap are read through JS truthiness: dexterity defaults to 10
when absent or 0, and the cap applies only when `max_bonus` is truthy
(present and nonzero). -/
theorem computeAC_eq_claimACAmended (dexterity : Option Int)
    (armorData offhandData : Option ApiDoc) (offHand : Option String) :
    computeAC dexterity armorData offhandData offHand =
      claimACAmended dexterity armorData offhandData offHand := rfl

/-! Claim C3: character-name uniqueness. -/

/-- Claim C3, counterexample: `addCharacter` appends unconditionally, so
adding a record whose name already occurs breaks the claimed uniqueness
invariant (nothing in CharacterForm.handleSubmit checks the name
either). -/
theorem addCharacter_unique_counterexample :
    UniqueNames [[("name", "Alice")]] ∧
    ¬ UniqueNames (addCharacter [("name", "Alice")] [[("name", "Alice")]]) := by
  decide

/-- Claim C3 (amended): `deleteCharacter` always preserves uniqueness of
names; `updateCharacter` preserves it whenever the update payload does
not carry a `name` field (the payloads built by CharacterCard never do);
`addCharacter` preserves it only when the new record's name does not
already occur in the collection. -/
theorem characterOps_preserve_uniqueNames {V : Type} [DecidableEq V]
    (cs : List (Obj V)) (n : V) (u ch : Obj V)
    (hu : UniqueNames cs) (hun : lookupV u "name" = none)
    (hch : ∀ c ∈ cs, ¬ (nameOf c ≠ none ∧ nameOf c = nameOf ch)) :
    UniqueNames (deleteCharacter n cs) ∧
    UniqueNames (updateCharacter n u cs) ∧
    UniqueNames (addCharacter ch cs) := by
  refine ⟨?_, ?_, ?_⟩
  · exact List.Pairwise.sublist (List.filter_sublist cs) hu
  · unfold updateCharacter UniqueNames
    rw [List.pairwise_map]
    refine hu.imp ?_
    intro a b hab
    have ha : nameOf (if nameOf a = some n then mergeObj a u else a) = nameOf a := by
      by_cases h : nameOf a = some n <;> simp [h, nameOf_mergeObj _ _ hun]
    have hb : nameOf (if nameOf b = some n then mergeObj b u else b) = nameOf b := by
      by_cases h : nameOf b = some n <;> simp [h, nameOf_mergeObj _ _ hun]
    rw [ha, hb]
    exact hab
  · unfold addCharacter UniqueNames
    rw [List.pairwise_append]
    refine ⟨hu, List.pairwise_singleton _ _, ?_⟩
    intro a ha b hb
    rw [List.mem_singleton.mp hb]
    exact hch a ha

/-- Claim C3, witness: the three operations applied to a concrete
two-character collection. -/
theorem characterOps_preserve_uniqueNames_witness :
    UniqueNames (deleteCharacter "Alice" [[("name", "Alice")], [("name", "Borin")]]) ∧
    UniqueNames (updateCharacter "Alice" [("bio", "x")] [[("name", "Alice")], [("name", "Borin")]]) ∧
    UniqueNames (addCharacter [("name", "Cleo")] [[("name", "Alice")], [("name", "Borin")]]) :=
  characterOps_preserve_uniqueNames
    [[("name", "Alice")], [("name", "Borin")]] "Alice" [("bio", "x")]
    [("name", "Cleo")] (by decide) (by decide) (by decide)

/-! Claim C4: edits rewrite the record. -/

/-- Claim C4, counterexample: `updateCharacter` merges `{...c, ...upd}`
rather than replacing the record wholesale with the edited data: a field
absent from the payload (here `race`) survives from the old record, so
the resulting record is not the payload. -/
theorem updateCharacter_wholesale_counterexample :
    updateCharacter "Alice" [("bio", "x")] [[("name", "Alice"), ("race", "elf")]] =
      [[("name", "Alice"), ("race", "elf"), ("bio", "x")]] ∧
    updateCharacter "Alice" [("bio", "x")] [[("name", "Alice"), ("race", "elf")]] ≠
      [[("bio", "x")]] := by
  decide

/-- Claim C4 (amended): `updateCharacter(name, upd)` keeps the list
length and order; every record whose name differs from `name` is
byte-for-byte unchanged; every record whose name equals `name` is
replaced by the merge of the old record with the payload: fields present
in the payload are overwritten, all other fields keep their old
values. -/
theorem updateCharacter_frame {V : Type} [DecidableEq V]
    (cs : List (Obj V)) (n : V) (u : Obj V) (i : Nat) (k : String)
    (h1 : i < cs.length) (h2 : i < (updateCharacter n u cs).length) :
    (updateCharacter n u cs).length = cs.length ∧
    (nameOf (cs.get ⟨i, h1⟩) ≠ some n →
      (updateCharacter n u cs).get ⟨i, h2⟩ = cs.get ⟨i, h1⟩) ∧
    (nameOf (cs.get ⟨i, h1⟩) = some n →
      lookupV ((updateCharacter n u cs).get ⟨i, h2⟩) k =
        match lookupV u k with
        | some v => some v
        | none => lookupV (cs.get ⟨i, h1⟩) k) := by
  refine ⟨by simp [updateCharacter], ?_, ?_⟩
  · intro hne
    unfold updateCharacter at h2 ⊢
    rw [List.get_map]
    exact if_neg hne
  · intro heq
    unfold updateCharacter at h2 ⊢
    rw [List.get_map]
    have hif : (if nameOf (cs.get ⟨i, h1⟩) = some n
        then mergeObj (cs.get ⟨i, h1⟩) u else cs.get ⟨i, h1⟩) =
        mergeObj (cs.get ⟨i, h1⟩) u := if_pos heq
    rw [hif]
    exact lookupV_mergeObj _ u k

/-- Claim C4, witness: updating "Alice" in a concrete two-record list,
observed at the untouched record and at the merged fields. -/
theorem updateCharacter_frame_witness :
    (updateCharacter "Alice" [("race", "tiefling")]
        [[("name", "Alice"), ("race", "elf")], [("name", "Borin"), ("race", "dwarf")]]).length =
      ([[("name", "Alice"), ("race", "elf")], [("name", "Borin"), ("race", "dwarf")]] : List (Obj String)).length ∧
    (nameOf (([[("name", "Alice"), ("race", "elf")], [("name", "Borin"), ("race", "dwarf")]] : List (Obj String)).get ⟨0, by decide⟩) ≠ some "Alice" →
      (updateCharacter "Alice" [("race", "tiefling")]
        [[("name", "Alice"), ("race", "elf")], [("name", "Borin"), ("race", "dwarf")]]).get ⟨0, by decide⟩ =
        ([[("name", "Alice"), ("race", "elf")], [("name", "Borin"), ("race", "dwarf")]] : List (Obj String)).get ⟨0, by decide⟩) ∧
    (nameOf (([[("name", "Alice"), ("race", "elf")], [("name", "Borin"), ("race", "dwarf")]] : List (Obj String)).get ⟨0, by decide⟩) = some "Alice" →
      lookupV ((updateCharacter "Alice" [("race", "tiefling")]
        [[("name", "Alice"), ("race", "elf")], [("name", "Borin"), ("race", "dwarf")]]).get ⟨0, by decide⟩) "name" =
        match lookupV [("race", "tiefling")] "name" with
        | some v => some v
        | none => lookupV (([[("name", "Alice"), ("race", "elf")], [("name", "Borin"), ("race", "dwarf")]] : List (Obj String)).get ⟨0, by decide⟩) "name") :=
  updateCharacter_frame
    [[("name", "Alice"), ("race", "elf")], [("name", "Borin"), ("race", "dwarf")]]
    "Alice" [("race", "tiefling")] 0 "name" (by decide) (by decide)

/-! Claim C7: equipment slots are slot-local. -/

/-- Claim C7: `handleEquipChange(slot, value)` stores exactly the single
item-name string `value` in the named slot, leaves every other slot's
value unchanged, and keeps the slot keys duplicate-free, so each slot
holds at most one item. -/
theorem handleEquipChange_slot_local (equipment : Obj String)
    (slot value other : String) (hne : other ≠ slot)
    (hnd : (keysOf equipment).Nodup) :
    lookupV (handleEquipChange equipment slot value) slot = some value ∧
    lookupV (handleEquipChange equipment slot value) other =
      lookupV equipment other ∧
    (keysOf (handleEquipChange equipment slot value)).Nodup :=
  ⟨lookupV_setKey_self equipment slot value,
   lookupV_setKey_other equipment slot value other hne,
   keysOf_setKey_nodup equipment slot value hnd⟩

/-- Claim C7, witness: replacing the off-hand item of a concrete
equipment object. -/
theorem handleEquipChange_slot_local_witness :
    ("armor" ≠ "offHand" ∧ (keysOf ([("armor", "Chain Mail"), ("offHand", "Shield")] : Obj String)).Nodup) ∧
    lookupV (handleEquipChange [("armor", "Chain Mail"), ("offHand", "Shield")] "offHand" "Club") "offHand" = some "Club" ∧
    lookupV (handleEquipChange [("armor", "Chain Mail"), ("offHand", "Shield")] "offHand" "Club") "armor" =
      lookupV [("armor", "Chain Mail"), ("offHand", "Shield")] "armor" ∧
    (keysOf (handleEquipChange [("armor", "Chain Mail"), ("offHand", "Shield")] "offHand" "Club")).Nodup :=
  ⟨⟨by decide, by decide⟩,
   handleEquipChange_slot_local [("armor", "Chain Mail"), ("offHand", "Shield")]
     "offHand" "Club" "armor" (by decide) (by decide)⟩

/-! Claim C8: stats never go negative. -/

/-- Helper for C8: one adjustStat step keeps every stored stat value
non-negative (the new value is `Math.max(0, ...)`, old entries are
untouched or replaced by it). -/
theorem adjustStat_nonneg_step (stats : Obj Int) (stat : String) (delta : Int)
    (hpos : ∀ kv ∈ stats, 0 ≤ kv.2) :
    ∀ kv ∈ adjustStat stats stat delta, 0 ≤ kv.2 := by
  intro kv hkv
  rcases mem_setKey stats stat _ kv hkv with h | h
  · exact hpos kv h
  · rw [h]
    exact le_max_left 0 _

/-- Helper for C8: the fold over a sequence of adjustStat calls keeps
every stored stat value non-negative. -/
theorem applyStats_nonneg (ops : List (String × Int)) :
    ∀ stats : Obj Int, (∀ kv ∈ stats, 0 ≤ kv.2) →
      ∀ kv ∈ applyStats ops stats, 0 ≤ kv.2 := by
  induction ops with
  | nil => intro stats hpos kv hkv; exact hpos kv hkv
  | cons op rest ih =>
    intro stats hpos kv hkv
    exact ih (adjustStat stats op.1 op.2)
      (adjustStat_nonneg_step stats op.1 op.2 hpos) kv hkv

/-- Claim C8: starting from non-negative stored stats, any sequence of
adjustStat calls keeps every stored value non-negative; a decrement
applied at 0 leaves the stat at 0; and adjustStat changes no stat other
than the one named. -/
theorem adjustStat_safe (stats : Obj Int) (ops : List (String × Int))
    (stat other : String) (delta : Int)
    (hpos : ∀ kv ∈ stats, 0 ≤ kv.2) (hz : lookupV stats stat = some 0)
    (hne : other ≠ stat) :
    (∀ kv ∈ applyStats ops stats, 0 ≤ kv.2) ∧
    lookupV (adjustStat stats stat (-1)) stat = some 0 ∧
    lookupV (adjustStat stats stat delta) other = lookupV stats other := by
  refine ⟨applyStats_nonneg ops stats hpos, ?_, ?_⟩
  · unfold adjustStat
    rw [hz]
    have hv : max 0 (jsOrZero (some 0) + (-1)) = 0 := by decide
    rw [hv]
    exact lookupV_setKey_self stats stat 0
  · exact lookupV_setKey_other stats stat _ other hne

/-- Claim C8, witness: press sequences on a concrete stats object with
dexterity at 0. -/
theorem adjustStat_safe_witness :
    (∀ kv ∈ applyStats [("dexterity", -1), ("strength", 1), ("dexterity", -1)]
        [("dexterity", (0 : Int)), ("strength", 3)], 0 ≤ kv.2) ∧
    lookupV (adjustStat [("dexterity", (0 : Int)), ("strength", 3)] "dexterity" (-1)) "dexterity" = some 0 ∧
    lookupV (adjustStat [("dexterity", (0 : Int)), ("strength", 3)] "dexterity" 1) "strength" =
      lookupV [("dexterity", (0 : Int)), ("strength", 3)] "strength" :=
  adjustStat_safe [("dexterity", (0 : Int)), ("strength", 3)]
    [("dexterity", -1), ("strength", 1), ("dexterity", -1)]
    "dexterity" "strength" 1 (by decide) (by decide) (by decide)

/-! Lemmas about the string helpers: trim idempotence and the canonical
shape of normalize output. -/

theorem dropWhile_head_not (p : Char → Bool) (l : List Char) :
    ∀ c, (l.dropWhile p).head? = some c → p c = false := by
  induction l with
  | nil => intro c hc; simp at hc
  | cons a l ih =>
    intro c hc
    by_cases hp : p a
    · rw [List.dropWhile_cons, if_pos hp] at hc
      exact ih c hc
    · rw [List.dropWhile_cons, if_neg hp] at hc
      cases hc
      exact Bool.eq_false_iff.mpr hp

theorem dropWhile_eq_self_of (p : Char → Bool) (l : List Char)
    (h : ∀ c, l.head? = some c → p c = false) : l.dropWhile p = l := by
  cases l with
  | nil => rfl
  | cons a l =>
    rw [List.dropWhile_cons, if_neg]
    simp [h a rfl]

theorem suffix_getLast? {s m : List Char} (h : s <:+ m) (hs : s ≠ []) :
    s.getLast? = m.getLast? := by
  rcases h with ⟨t, rfl⟩
  rw [List.getLast?_append]
  cases hl : s.getLast? with
  | none => exact absurd (List.getLast?_eq_none.mp hl) hs
  | some x => rfl

theorem trim_head_not_ws (l : List Char) :
    ∀ c, (trimWS l).head? = some c → isWSCh c = false := by
  intro c hc
  unfold trimWS at hc
  rw [List.head?_reverse] at hc
  have hne : (l.dropWhile isWSCh).reverse.dropWhile isWSCh ≠ [] := by
    intro h
    rw [h] at hc
    simp at hc
  rw [suffix_getLast? (List.dropWhile_suffix _) hne, List.getLast?_reverse] at hc
  exact dropWhile_head_not isWSCh l c hc

theorem trim_last_not_ws (l : List Char) :
    ∀ c, (trimWS l).getLast? = some c → isWSCh c = false := by
  intro c hc
  unfold trimWS at hc
  rw [List.getLast?_reverse] at hc
  exact dropWhile_head_not isWSCh _ c hc

theorem trimWS_eq_self (l : List Char)
    (hh : ∀ c, l.head? = some c → isWSCh c = false)
    (hl : ∀ c, l.getLast? = some c → isWSCh c = false) : trimWS l = l := by
  unfold trimWS
  rw [dropWhile_eq_self_of isWSCh l hh, dropWhile_eq_self_of isWSCh l.reverse
    (fun c hc => hl c (by rwa [List.head?_reverse] at hc)), List.reverse_reverse]

theorem trimWS_idem (l : List Char) : trimWS (trimWS l) = trimWS l :=
  trimWS_eq_self (trimWS l) (trim_head_not_ws l) (trim_last_not_ws l)

theorem jsTrim_idem (s : String) : jsTrim (jsTrim s) = jsTrim s := by
  unfold jsTrim
  exact congrArg (fun l => (⟨l⟩ : String)) (trimWS_idem s.data)

theorem mem_trimWS {c : Char} {l : List Char} (h : c ∈ trimWS l) : c ∈ l := by
  unfold trimWS at h
  rw [List.mem_reverse] at h
  have h1 := (List.dropWhile_suffix isWSCh).subset h
  rw [List.mem_reverse] at h1
  exact (List.dropWhile_suffix isWSCh).subset h1

/-! Claim C9: feats, skills/spells and inventory lists. -/

/-- Claim C9: `handleAdd` appends the trimmed value exactly when it is
non-empty and not already present, and otherwise leaves the list
unchanged; the lists stay duplicate-free and free of empty or
whitespace-only entries; `handleRemove` removes every occurrence of the
value and keeps the remaining entries in order (a sublist). -/
theorem handleAdd_handleRemove_invariants (list : List String)
    (val dup rem x : String)
    (htrim : jsTrim val ≠ "") (hmem : jsTrim val ∉ list)
    (hdup : jsTrim dup = "" ∨ jsTrim dup ∈ list)
    (hinv : ∀ y ∈ list, jsTrim y ≠ "") (hnd : list.Nodup) :
    handleAdd list val = list ++ [jsTrim val] ∧
    handleAdd list dup = list ∧
    (∀ y ∈ handleAdd list val, jsTrim y ≠ "") ∧
    (handleAdd list val).Nodup ∧
    rem ∉ handleRemove list rem ∧
    (handleRemove list rem).Sublist list ∧
    (x ∈ handleRemove list rem ↔ x ∈ list ∧ x ≠ rem) ∧
    (handleRemove list rem).Nodup := by
  have hadd : handleAdd list val = list ++ [jsTrim val] := by
    unfold handleAdd
    rw [if_pos]
    exact ⟨htrim, by simpa [List.elem_iff] using hmem⟩
  refine ⟨hadd, ?_, ?_, ?_, ?_, List.filter_sublist list, ?_, ?_⟩
  · unfold handleAdd
    rw [if_neg]
    rintro ⟨h1, h2⟩
    rcases hdup with h | h
    · exact h1 h
    · exact h2 (by simpa [List.elem_iff] using h)
  · intro y hy
    rw [hadd] at hy
    rcases List.mem_append.mp hy with h | h
    · exact hinv y h
    · rw [List.mem_singleton.mp h, jsTrim_idem]
      exact htrim
  · rw [hadd, List.nodup_append]
    exact ⟨hnd, List.nodup_singleton _,
      fun a ha hb => hmem ((List.mem_singleton.mp hb) ▸ ha)⟩
  · intro h
    have := (List.mem_filter.mp h).2
    simp at this
  · constructor
    · intro h
      have h1 := List.mem_filter.mp h
      exact ⟨h1.1, by simpa using h1.2⟩
    · intro ⟨h1, h2⟩
      exact List.mem_filter.mpr ⟨h1, by simpa using h2⟩
  · exact hnd.filter _

/-- Claim C9, witness: adding and removing entries on a concrete feats
list. -/
theorem handleAdd_handleRemove_invariants_witness :
    handleAdd ["Alert", "Lucky"] " Tough " = ["Alert", "Lucky"] ++ [jsTrim " Tough "] ∧
    handleAdd ["Alert", "Lucky"] "Lucky" = ["Alert", "Lucky"] ∧
    (∀ y ∈ handleAdd ["Alert", "Lucky"] " Tough ", jsTrim y ≠ "") ∧
    (handleAdd ["Alert", "Lucky"] " Tough ").Nodup ∧
    "Lucky" ∉ handleRemove ["Alert", "Lucky"] "Lucky" ∧
    (handleRemove ["Alert", "Lucky"] "Lucky").Sublist ["Alert", "Lucky"] ∧
    ("Alert" ∈ handleRemove ["Alert", "Lucky"] "Lucky" ↔
      "Alert" ∈ ["Alert", "Lucky"] ∧ "Alert" ≠ "Lucky") ∧
    (handleRemove ["Alert", "Lucky"] "Lucky").Nodup :=
  handleAdd_handleRemove_invariants ["Alert", "Lucky"] " Tough " "Lucky" "Lucky"
    "Alert" (by decide) (by decide) (by decide) (by decide) (by decide)

/-! Canonical shape of normalize output: only lowercase alphanumerics
and single separating spaces, with no leading or trailing space. -/

/-- The adjacency relation of canonical strings: no two consecutive
spaces. -/
def noDoubleSpace (a b : Char) : Prop := ¬ (a = ' ' ∧ b = ' ')

theorem sanitize_mem (l : List Char) :
    ∀ c ∈ sanitize l, isLowerAlnum c = true ∨ isWSCh c = true := by
  intro c hc
  rcases List.mem_map.mp hc with ⟨a, _, rfl⟩
  by_cases h : (isLowerAlnum a || isWSCh a) = true
  · rw [if_pos h]
    rcases Bool.or_eq_true_iff.mp h with h1 | h1
    · exact Or.inl h1
    · exact Or.inr h1
  · rw [if_neg h]
    exact Or.inr (by decide)

theorem sanitize_eq_self (l : List Char)
    (hc : ∀ c ∈ l, isLowerAlnum c = true ∨ c = ' ') : sanitize l = l := by
  unfold sanitize
  refine List.map_congr_left ?_ |>.trans (List.map_id l)
  intro a ha
  rcases hc a ha with h | h
  · rw [if_pos (by simp [h])]
    rfl
  · rw [h]
    rfl

theorem collapseWS_mem (l : List Char) :
    ∀ c ∈ collapseWS l, c = ' ' ∨ (c ∈ l ∧ isWSCh c = false) := by
  induction l with
  | nil => intro c hc; simp [collapseWS] at hc
  | cons a rest ih =>
    intro c hc
    unfold collapseWS at hc
    by_cases hw : isWSCh a
    · rw [if_pos hw] at hc
      by_cases hh : (collapseWS rest).head? = some ' '
      · rw [if_pos hh] at hc
        rcases ih c hc with h | h
        · exact Or.inl h
        · exact Or.inr ⟨List.mem_cons_of_mem a h.1, h.2⟩
      · rw [if_neg hh] at hc
        rcases List.mem_cons.mp hc with h | h
        · exact Or.inl h
        · rcases ih c h with h1 | h1
          · exact Or.inl h1
          · exact Or.inr ⟨List.mem_cons_of_mem a h1.1, h1.2⟩
    · rw [if_neg hw] at hc
      rcases List.mem_cons.mp hc with h | h
      · exact Or.inr ⟨h ▸ List.mem_cons_self a rest, h ▸ Bool.eq_false_iff.mpr hw⟩
      · rcases ih c h with h1 | h1
        · exact Or.inl h1
        · exact Or.inr ⟨List.mem_cons_of_mem a h1.1, h1.2⟩

theorem collapseWS_chain (l : List Char) :
    (collapseWS l).Chain' noDoubleSpace := by
  induction l with
  | nil => simp [collapseWS]
  | cons a rest ih =>
    unfold collapseWS
    by_cases hw : isWSCh a
    · rw [if_pos hw]
      by_cases hh : (collapseWS rest).head? = some ' '
      · rw [if_pos hh]
        exact ih
      · rw [if_neg hh]
        refine List.chain'_cons'.mpr ⟨?_, ih⟩
        intro y hy
        intro ⟨_, hy'⟩
        exact hh (by rw [hy, hy'])
    · rw [if_neg hw]
      refine List.chain'_cons'.mpr ⟨?_, ih⟩
      intro y _
      intro ⟨ha, _⟩
      rw [ha] at hw
      exact hw (by decide)

theorem collapseWS_eq_self (l : List Char)
    (hc : ∀ c ∈ l, isWSCh c = false ∨ c = ' ')
    (hch : l.Chain' noDoubleSpace) : collapseWS l = l := by
  induction l with
  | nil => rfl
  | cons a rest ih =>
    have hrest : collapseWS rest = rest :=
      ih (fun c hcc => hc c (List.mem_cons_of_mem a hcc)) hch.tail
    unfold collapseWS
    rw [hrest]
    by_cases hw : isWSCh a
    · rw [if_pos hw]
      have ha : a = ' ' := by
        rcases hc a (List.mem_cons_self a rest) with h | h
        · rw [h] at hw; cases hw
        · exact h
      have hhd : rest.head? ≠ some ' ' := by
        intro hsp
        cases rest with
        | nil => simp at hsp
        | cons b rs =>
          have hrel := (List.chain'_cons'.mp hch).1 b rfl
          exact hrel ⟨ha, by simpa using hsp⟩
      rw [if_neg hhd, ha]
    · rw [if_neg hw]

theorem jsLower_eq_self {c : Char} (h : isUpperCh c = false) :
    jsLower c = c := by
  unfold jsLower
  rw [h]
  rfl

theorem lowerAlnum_not_upper {c : Char} (h : isLowerAlnum c = true ∨ c = ' ') :
    isUpperCh c = false := by
  refine Bool.eq_false_iff.mpr ?_
  intro hb
  simp only [isUpperCh, Bool.and_eq_true, decide_eq_true_eq] at hb
  rcases h with h | h
  · simp only [isLowerAlnum, Bool.or_eq_true, Bool.and_eq_true,
      decide_eq_true_eq] at h
    omega
  · rw [h] at hb
    exact absurd hb (by decide)

theorem lowerAlnum_not_ws {c : Char} (h : isLowerAlnum c = true) :
    isWSCh c = false := by
  refine Bool.eq_false_iff.mpr ?_
  intro hb
  simp only [isWSCh, Bool.or_eq_true, decide_eq_true_eq] at hb
  simp only [isLowerAlnum, Bool.or_eq_true, Bool.and_eq_true,
    decide_eq_true_eq] at h
  omega

theorem lowerAlnum_ne_paren {c : Char} (h : isLowerAlnum c = true ∨ c = ' ') :
    c ≠ '(' := by
  intro hp
  rcases h with h | h
  · rw [hp] at h
    simp only [isLowerAlnum, Bool.or_eq_true, Bool.and_eq_true,
      decide_eq_true_eq] at h
    have : ('(' : Char).toNat = 40 := by decide
    omega
  · rw [hp] at h
    cases h

theorem jsLowerL_eq_self (l : List Char)
    (hc : ∀ c ∈ l, isLowerAlnum c = true ∨ c = ' ') : jsLowerL l = l := by
  unfold jsLowerL
  refine List.map_congr_left ?_ |>.trans (List.map_id l)
  intro a ha
  exact jsLower_eq_self (lowerAlnum_not_upper (hc a ha))

theorem dropParensF_eq_self (fuel : Nat) (l : List Char)
    (hc : ∀ c ∈ l, c ≠ '(') : dropParensF fuel l = l := by
  induction fuel generalizing l with
  | zero => cases l <;> rfl
  | succ fuel ih =>
    cases l with
    | nil => rfl
    | cons a rest =>
      unfold dropParensF
      rw [if_neg (hc a (List.mem_cons_self a rest))]
      rw [ih rest (fun c hcc => hc c (List.mem_cons_of_mem a hcc))]

theorem dropParens_eq_self (l : List Char) (hc : ∀ c ∈ l, c ≠ '(') :
    dropParens l = l :=
  dropParensF_eq_self l.length l hc

/-- The canonical shape of normalize output. -/
def Canon (l : List Char) : Prop :=
  (∀ c ∈ l, isLowerAlnum c = true ∨ c = ' ') ∧
  l.Chain' noDoubleSpace ∧
  (∀ c, l.head? = some c → isWSCh c = false) ∧
  (∀ c, l.getLast? = some c → isWSCh c = false)

theorem trim_chain {l : List Char} (h : l.Chain' noDoubleSpace) :
    (trimWS l).Chain' noDoubleSpace := by
  unfold trimWS
  have hsym : ∀ m : List Char, m.Chain' noDoubleSpace →
      m.reverse.Chain' noDoubleSpace := by
    intro m hm
    rw [List.chain'_reverse]
    exact hm.imp (fun {a b} hab ⟨h1, h2⟩ => hab ⟨h2, h1⟩)
  exact hsym _ ((hsym _ (h.suffix (List.dropWhile_suffix _))).suffix
    (List.dropWhile_suffix _))

theorem canon_normalizeL (x : List Char) : Canon (normalizeL x) := by
  unfold normalizeL
  set y := collapseWS (sanitize (dropParens (jsLowerL x))) with hy
  have hchar : ∀ c ∈ y, isLowerAlnum c = true ∨ c = ' ' := by
    intro c hcy
    rcases collapseWS_mem _ c hcy with h | h
    · exact Or.inr h
    · rcases sanitize_mem _ c h.1 with h1 | h1
      · exact Or.inl h1
      · rw [h.2] at h1
        cases h1
  refine ⟨?_, trim_chain (collapseWS_chain _), trim_head_not_ws y,
    trim_last_not_ws y⟩
  intro c hcc
  exact hchar c (mem_trimWS hcc)

theorem normalizeL_eq_self (m : List Char) (hcanon : Canon m) :
    normalizeL m = m := by
  obtain ⟨hchar, hchain, hhead, hlast⟩ := hcanon
  unfold normalizeL
  rw [jsLowerL_eq_self m hchar,
    dropParens_eq_self m (fun c hcc => lowerAlnum_ne_paren (hchar c hcc)),
    sanitize_eq_self m hchar,
    collapseWS_eq_self m (fun c hcc => by
      rcases hchar c hcc with h | h
      · exact Or.inl (lowerAlnum_not_ws h)
      · exact Or.inr h) hchain,
    trimWS_eq_self m hhead hlast]

theorem normalizeL_idem (x : List Char) :
    normalizeL (normalizeL x) = normalizeL x :=
  normalizeL_eq_self (normalizeL x) (canon_normalizeL x)

theorem normalize_idem (s : String) :
    normalize (normalize s) = normalize s := by
  unfold normalize
  exact congrArg (fun l => (⟨l⟩ : String)) (normalizeL_idem s.data)

/-! Lemmas about the token-overlap score. -/

theorem tokenScoreL_card (a b : List Char) :
    tokenScoreL a b = ((tokensL a).toFinset ∩ (tokensL b).toFinset).card := by
  unfold tokenScoreL
  have hnd : ((tokensL a).dedup.filter (fun t => t ∈ tokensL b)).Nodup :=
    (List.nodup_dedup _).filter _
  rw [← List.toFinset_card_of_nodup hnd, List.toFinset_filter]
  have hdt : ((tokensL a).dedup).toFinset = (tokensL a).toFinset := by
    ext x
    simp [List.mem_dedup]
  rw [hdt]
  rw [Finset.filter_congr (q := fun x => x ∈ (tokensL b).toFinset)
    (fun x _ => by simp [List.mem_toFinset])]
  rw [Finset.filter_mem_eq_inter]

theorem dedup_map_mk (l : List (List Char)) :
    (l.map (fun w => (⟨w⟩ : String))).dedup =
      l.dedup.map (fun w => (⟨w⟩ : String)) := by
  induction l with
  | nil => rfl
  | cons a l ih =>
    by_cases h : a ∈ l
    · rw [List.map_cons, List.dedup_cons_of_mem (List.mem_map_of_mem _ h),
        List.dedup_cons_of_mem h, ih]
    · rw [List.map_cons, List.dedup_cons_of_not_mem ?_,
        List.dedup_cons_of_not_mem h, ih, List.map_cons]
      intro hmem
      rcases List.mem_map.mp hmem with ⟨w, hw, hwa⟩
      have hwa' : w = a := congrArg String.data hwa
      exact h (hwa' ▸ hw)

/-! Claim C10: algebraic properties of the matching helpers. -/

/-- Claim C10: `normalize` is idempotent; `tokenScore` is symmetric and
non-negative; `tokenScore(a, a)` equals the number of distinct tokens of
`a`. -/
theorem normalize_tokenScore_algebra :
    (∀ s : String, normalize (normalize s) = normalize s) ∧
    (∀ a b : String, tokenScore a b = tokenScore b a) ∧
    (∀ a b : String, 0 ≤ tokenScore a b) ∧
    (∀ a : String, tokenScore a a = (tokens a).dedup.length) := by
  refine ⟨normalize_idem, ?_, ?_, ?_⟩
  · intro a b
    unfold tokenScore
    rw [tokenScoreL_card, tokenScoreL_card, Finset.inter_comm]
  · intro a b
    exact Nat.zero_le _
  · intro a
    unfold tokenScore tokens
    rw [dedup_map_mk, List.length_map]
    unfold tokenScoreL
    rw [List.filter_eq_self.mpr]
    intro t ht
    simp [List.mem_dedup.mp ht]

/-! Lemmas about the token-overlap selection loop. -/

theorem le_foldr_max (l : List Nat) (b : Nat) : b ≤ l.foldr max b := by
  induction l with
  | nil => exact le_refl b
  | cons a t ih => exact le_trans ih (le_max_right a _)

theorem foldr_max_init (l : List Nat) (a b : Nat) :
    l.foldr max (max a b) = max a (l.foldr max b) := by
  induction l with
  | nil => rfl
  | cons h t ih =>
    rw [List.foldr_cons, List.foldr_cons, ih, Nat.max_left_comm]

theorem scoreLoop_eq (name : String) (rs : List IdxEntry) :
    ∀ (best : Option IdxEntry) (bs : Nat),
    scoreLoop name rs best bs =
      (if (rs.map (fun r => tokenScore r.name name)).foldr max bs = bs
       then (best, bs)
       else ((rs.find? (fun r =>
              tokenScore r.name name =
                (rs.map (fun r => tokenScore r.name name)).foldr max bs)),
             (rs.map (fun r => tokenScore r.name name)).foldr max bs)) := by
  induction rs with
  | nil =>
    intro best bs
    simp [scoreLoop]
  | cons r rs ih =>
    intro best bs
    have hmap : ((r :: rs).map (fun r => tokenScore r.name name)).foldr max bs =
        max (tokenScore r.name name)
          ((rs.map (fun r => tokenScore r.name name)).foldr max bs) := by
      rw [List.map_cons, List.foldr_cons]
    by_cases hgt : tokenScore r.name name > bs
    · have hloop : scoreLoop name (r :: rs) best bs =
          scoreLoop name rs (some r) (tokenScore r.name name) := by
        simp [scoreLoop, hgt]
      have hM2 : (rs.map (fun r => tokenScore r.name name)).foldr max
          (tokenScore r.name name) =
          max (tokenScore r.name name)
            ((rs.map (fun r => tokenScore r.name name)).foldr max bs) := by
        have h0 : tokenScore r.name name = max (tokenScore r.name name) bs :=
          (Nat.max_eq_left (le_of_lt hgt)).symm
        calc (rs.map (fun r => tokenScore r.name name)).foldr max
              (tokenScore r.name name)
            = (rs.map (fun r => tokenScore r.name name)).foldr max
              (max (tokenScore r.name name) bs) := by rw [← h0]
          _ = max (tokenScore r.name name)
              ((rs.map (fun r => tokenScore r.name name)).foldr max bs) :=
            foldr_max_init _ _ _
      rw [hloop, ih (some r) (tokenScore r.name name), hM2, hmap]
      have hMbs : max (tokenScore r.name name)
          ((rs.map (fun r => tokenScore r.name name)).foldr max bs) ≠ bs := by
        have := le_max_left (tokenScore r.name name)
          ((rs.map (fun r => tokenScore r.name name)).foldr max bs)
        omega
      rw [if_neg hMbs]
      by_cases hM : max (tokenScore r.name name)
          ((rs.map (fun r => tokenScore r.name name)).foldr max bs) =
          tokenScore r.name name
      · rw [if_pos hM]
        rw [List.find?_cons]
        have hp : (decide (tokenScore r.name name =
            max (tokenScore r.name name)
              ((rs.map (fun r => tokenScore r.name name)).foldr max bs))) =
            true := by
          rw [hM]
          simp
        rw [hp]
        rw [hM]
      · rw [if_neg hM]
        rw [List.find?_cons]
        have hp : (decide (tokenScore r.name name =
            max (tokenScore r.name name)
              ((rs.map (fun r => tokenScore r.name name)).foldr max bs))) =
            false := by
          simp only [decide_eq_false_iff_not]
          intro hh
          exact hM hh.symm
        rw [hp]
    · have hle : tokenScore r.name name ≤ bs := Nat.not_lt.mp hgt
      have hloop : scoreLoop name (r :: rs) best bs =
          scoreLoop name rs best bs := by
        simp [scoreLoop, hgt]
      have hbsM : bs ≤ (rs.map (fun r => tokenScore r.name name)).foldr max bs :=
        le_foldr_max _ bs
      have hMM : max (tokenScore r.name name)
          ((rs.map (fun r => tokenScore r.name name)).foldr max bs) =
          (rs.map (fun r => tokenScore r.name name)).foldr max bs :=
        Nat.max_eq_right (le_trans hle hbsM)
      rw [hloop, ih best bs, hmap, hMM]
      by_cases hM : (rs.map (fun r => tokenScore r.name name)).foldr max bs = bs
      · rw [if_pos hM, if_pos hM]
      · rw [if_neg hM, if_neg hM]
        rw [List.find?_cons]
        have hp : (decide (tokenScore r.name name =
            (rs.map (fun r => tokenScore r.name name)).foldr max bs)) =
            false := by
          simp only [decide_eq_false_iff_not]
          intro hh
          omega
        rw [hp]

theorem findIndexMatch_eq_specSelect (results : List IdxEntry)
    (name slug : String) :
    findIndexMatch results name slug = specSelect results name slug := by
  unfold findIndexMatch specSelect exactIndexMatch bestTokenMatch
  cases hex : results.find? (fun r =>
      normalize r.name = normalize name ∨
        (⟨jsLowerL r.index.data⟩ : String) = slug) with
  | some e => rfl
  | none =>
    rw [scoreLoop_eq name results none 0]
    by_cases hM : (results.map (fun r => tokenScore r.name name)).foldr max 0 = 0
    · rw [if_pos hM]
      simp [hM]
    · rw [if_neg hM]
      have : (results.map (fun r => tokenScore r.name name)).foldr max 0 > 0 :=
        Nat.pos_of_ne_zero hM
      simp [hM, this]

theorem magicStep_eq_claimMagicStepAmended (w : ApiWorld)
    (endpoint name slug : String) (json : ApiDoc) :
    magicStep w endpoint name slug json =
      claimMagicStepAmended w endpoint name slug json := by
  unfold magicStep claimMagicStepAmended claimMagicStep
  by_cases h : endpoint = "equipment" ∧ descMissing json
  · rw [if_pos h, if_pos h]
    by_cases hm : looksMagic name
    · rw [if_pos hm, if_pos hm, if_pos h]
    · rw [if_neg hm, if_neg hm]
  · rw [if_neg h, if_neg h]

/-! Claim C2: name-matching fallback order. -/

/-- Claim C2, counterexample: for the equipment name "club" (no magic
keyword) whose document lacks a description, the code skips the
magic-items fallback even though the magic-items endpoint has a
described document, while the claim says that lookup is attempted and
replaces the data. -/
theorem lookupName_claim_counterexample :
    lookupName clubWorld "equipment" "club" = .ok { desc := none } ∧
    claimLookup clubWorld "equipment" "club" =
      .ok { desc := some ["A magic club."] } ∧
    lookupName clubWorld "equipment" "club" ≠
      claimLookup clubWorld "equipment" "club" := by
  refine ⟨rfl, rfl, ?_⟩
  intro h
  rw [show lookupName clubWorld "equipment" "club" =
      .ok { desc := none } from rfl,
    show claimLookup clubWorld "equipment" "club" =
      .ok { desc := some ["A magic club."] } from rfl] at h
  injection h with h1
  exact absurd h1 (by decide)

/-- Claim C2 (amended): the lookup routine behaves exactly as claimed -
exact slugged fetch first, index scan with exact-normalized or slug
match then maximum token-overlap (at least one common token) on failure,
error when nothing matches - except that the final magic-items lookup
for description-less equipment results is attempted only when the
lowercased name contains one of the magic-like keywords. -/
theorem lookupName_eq_claimLookupAmended (w : ApiWorld)
    (endpoint name : String) (hname : name ≠ "") :
    lookupName w endpoint name = claimLookupAmended w endpoint name := by
  unfold lookupName claimLookupAmended
  simp only [magicStep_eq_claimMagicStepAmended, findIndexMatch_eq_specSelect]

/-- Claim C2, witness: the amended equivalence at the concrete club
world. -/
theorem lookupName_eq_claimLookupAmended_witness :
    "club" ≠ "" ∧
    lookupName clubWorld "equipment" "club" =
      claimLookupAmended clubWorld "equipment" "club" :=
  ⟨by decide, lookupName_eq_claimLookupAmended clubWorld "equipment" "club"
    (by decide)⟩

/-! Claim C5: lookup failures degrade to placeholders. -/

theorem equipBranch_isOk (d : ApiDoc) (h : hazardDoc d = false) :
    (equipBranch d).isOk = true := by
  unfold equipBranch
  cases hd : d.damage with
  | none => rfl
  | some dmg =>
    have h' : (strTruthy dmg.damage_dice && dmg.damage_type.isNone) = false := by
      unfold hazardDoc at h
      rw [hd] at h
      exact h
    by_cases hdice : strTruthy dmg.damage_dice = true
    · have htype : dmg.damage_type.isNone = false := by
        rw [hdice] at h'
        simpa using h'
      cases ht : dmg.damage_type with
      | none => rw [ht] at htype; simp at htype
      | some tyName =>
        simp only [hdice, ht, if_true]
        rfl
    · have hdice' : strTruthy dmg.damage_dice = false :=
        Bool.eq_false_iff.mpr hdice
      simp only [hdice', Bool.false_eq_true, if_false]
      rfl

/-- Claim C5, counterexample: `getTooltipContent` can throw.  For an
equipment document whose damage object has `damage_dice` but no
`damage_type`, the equipment branch dereferences
`data.damage.damage_type.name` on `undefined` and raises a TypeError
instead of returning content. -/
theorem getTooltipContent_throw_counterexample :
    getTooltipContent
      { loading := false, error := none,
        data := some { equipment_category := some "Weapon",
                       damage := some { damage_dice := some "1d6",
                                        damage_type := none } } } =
      .error "TypeError: Cannot read properties of undefined (reading name)" ∧
    (getTooltipContent
      { loading := false, error := none,
        data := some { equipment_category := some "Weapon",
                       damage := some { damage_dice := some "1d6",
                                        damage_type := none } } }).isOk = false :=
  ⟨rfl, by decide⟩

/-- Claim C5 (amended): `getTooltipContent` returns content for every
input whose data does not carry a damage object with `damage_dice` set
but `damage_type` absent (on that shape the equipment branch throws a
TypeError); on safe inputs it yields the loading indicator when loading,
the static error line when the error is truthy, `No data found.` when
data is absent and `No information available for this entry.` when the
data matches no known shape.  `useDnDAPI` converts every fetch failure
into its error result, with `loading` reset to false on every path. -/
theorem getTooltipContent_total (inp : TooltipInput) (w : ApiWorld)
    (ep n : String) (hsafe : dataHazard inp.data = false) :
    (getTooltipContent inp).isOk = true ∧
    (inp.loading = true → getTooltipContent inp = .ok .loadingSpinner) ∧
    (inp.loading = false → errTruthy inp.error = true →
      getTooltipContent inp = .ok (.errorLine (inp.error.getD ""))) ∧
    (inp.loading = false → errTruthy inp.error = false → inp.data = none →
      getTooltipContent inp = .ok .noData) ∧
    (inp.loading = false → errTruthy inp.error = false →
      inp.data.isSome = true → dataDescNonEmpty inp.data = false →
      dataEquip inp.data = false → getTooltipContent inp = .ok .noInfo) ∧
    (runFetch w ep n).loading = false ∧
    ((lookupName w ep n).isOk = false →
      (runFetch w ep n).error.isSome = true) := by
  obtain ⟨ld, dt, er⟩ := inp
  refine ⟨?_, ?_, ?_, ?_, ?_, ?_, ?_⟩
  · unfold getTooltipContent
    cases ld with
    | true => rfl
    | false =>
      by_cases herr : errTruthy er
      · simp [herr]
        rfl
      · simp only [Bool.false_eq_true, if_false, herr]
        cases dt with
        | none => rfl
        | some d =>
          by_cases hdesc : descNonEmpty d ∧ ¬ equipTruthy d
          · simp [hdesc]
            rfl
          · simp only [hdesc, if_false]
            by_cases hequip : equipTruthy d
            · simp only [hequip, if_true]
              exact equipBranch_isOk d hsafe
            · simp [hequip]
              rfl
  · intro hld
    subst hld
    rfl
  · intro hld herr
    subst hld
    simp [getTooltipContent, herr]
  · intro hld herr hdt
    subst hld hdt
    simp [getTooltipContent, herr]
  · intro hld herr hsome hdesc hequip
    subst hld
    cases dt with
    | none => simp at hsome
    | some d =>
      have hdesc' : descNonEmpty d = false := hdesc
      have hequip' : equipTruthy d = false := hequip
      have herr' : errTruthy er = false := herr
      simp [getTooltipContent, herr', hdesc', hequip']
  · unfold runFetch
    cases lookupName w ep n <;> rfl
  · intro hfail
    unfold runFetch
    cases h : lookupName w ep n with
    | ok j => rw [h] at hfail; exact Bool.noConfusion hfail
    | error e => rfl

/-- Claim C5, witness: a safe concrete input (equipment document with no
mechanical stats) and the concrete club world. -/
theorem getTooltipContent_total_witness :
    dataHazard (some ({} : ApiDoc)) = false ∧
    (getTooltipContent { loading := false, error := none,
                         data := some ({} : ApiDoc) }).isOk = true ∧
    (getTooltipContent { loading := false, error := none,
                         data := some ({} : ApiDoc) } = .ok .noInfo) ∧
    (runFetch clubWorld "feats" "alert").loading = false :=
  have h := getTooltipContent_total
    { loading := false, error := none, data := some ({} : ApiDoc) }
    clubWorld "feats" "alert" (by decide)
  ⟨by decide, h.1,
   h.2.2.2.2.1 rfl rfl rfl (by decide) (by decide),
   h.2.2.2.2.2.1⟩

/-! Claim C6: debounced synchronization. -/

theorem debounceRun_some_mem {α : Type} :
    ∀ (edits : List (Nat × α)), edits.Pairwise (fun a b => a.1 < b.1) →
    ∀ (dl : Nat) (pd : α) (T : Nat) (d : α),
    ((T, d) ∈ debounceRun edits (some (dl, pd)) ↔
      (T = dl ∧ d = pd ∧ ∀ e ∈ edits, dl < e.1) ∨
      ∃ pre cur post, edits = pre ++ cur :: post ∧ cur.1 + 300 = T ∧
        cur.2 = d ∧ ∀ e ∈ post, T < e.1) := by
  intro edits
  induction edits with
  | nil =>
    intro _ dl pd T d
    constructor
    · intro hmem
      have heq : (T, d) = (dl, pd) := by
        simpa [debounceRun] using hmem
      have h1 : T = dl := congrArg Prod.fst heq
      have h2 : d = pd := congrArg Prod.snd heq
      exact Or.inl ⟨h1, h2, fun e he => absurd he (List.not_mem_nil e)⟩
    · rintro (⟨h1, h2, _⟩ | ⟨pre, cur, post, habs, _⟩)
      · simp [debounceRun, h1, h2]
      · exact absurd habs (by simp)
  | cons e0 rest ih =>
    obtain ⟨t0, d0⟩ := e0
    intro hch dl pd T d
    have hrest0 : ∀ e ∈ rest, t0 < e.1 := (List.pairwise_cons.mp hch).1
    have hchrest := (List.pairwise_cons.mp hch).2
    have IH := ih hchrest (t0 + 300) d0 T d
    have hrun : debounceRun ((t0, d0) :: rest) (some (dl, pd)) =
        (if dl < t0 then [(dl, pd)] else []) ++
          debounceRun rest (some (t0 + 300, d0)) := rfl
    constructor
    · intro hmem
      rw [hrun] at hmem
      rcases List.mem_append.mp hmem with hf | hr
      · by_cases hdl : dl < t0
        · rw [if_pos hdl] at hf
          have heq : (T, d) = (dl, pd) := List.mem_singleton.mp hf
          have h1 : T = dl := congrArg Prod.fst heq
          have h2 : d = pd := congrArg Prod.snd heq
          refine Or.inl ⟨h1, h2, ?_⟩
          intro e he
          rcases List.mem_cons.mp he with he0 | her
          · rw [he0]
            exact hdl
          · exact lt_trans hdl (hrest0 e her)
        · rw [if_neg hdl] at hf
          cases hf
      · rcases IH.mp hr with ⟨h1, h2, h3⟩ | ⟨pre, cur, post, heq, h1, h2, h3⟩
        · exact Or.inr ⟨[], (t0, d0), rest, rfl, h1.symm, h2.symm,
            fun e he => h1 ▸ h3 e he⟩
        · exact Or.inr ⟨(t0, d0) :: pre, cur, post, by rw [heq]; rfl,
            h1, h2, h3⟩
    · intro hrhs
      rw [hrun]
      apply List.mem_append.mpr
      rcases hrhs with ⟨h1, h2, h3⟩ | ⟨pre, cur, post, heq, h1, h2, h3⟩
      · left
        have hdl : dl < t0 := h3 (t0, d0) (List.mem_cons_self _ _)
        rw [if_pos hdl, h1, h2]
        exact List.mem_singleton.mpr rfl
      · right
        apply IH.mpr
        cases pre with
        | nil =>
          rw [List.nil_append] at heq
          injection heq with ha hb
          left
          refine ⟨?_, ?_, ?_⟩
          · rw [← ha] at h1
            exact h1.symm
          · rw [← ha] at h2
            exact h2.symm
          · intro e he
            have hT : T = t0 + 300 := by
              rw [← ha] at h1
              exact h1.symm
            rw [← hT]
            exact h3 e (hb ▸ he)
        | cons p0 pre' =>
          rw [List.cons_append] at heq
          injection heq with ha hb
          right
          exact ⟨pre', cur, post, hb, h1, h2, h3⟩

/-- Claim C6: for chronological edit sequences, a synchronization
`(T, d)` is emitted exactly when some edit `(t, d)` satisfies
`T = t + 300` and every later edit happens strictly after `T`: the
payload is propagated only after 300 ms elapse with no further edit, a
new edit within the window cancels the pending synchronization, and no
sync is ever emitted for a state edited again within its window. -/
theorem debounce_emissions_iff {α : Type} (edits : List (Nat × α))
    (hch : edits.Pairwise (fun a b => a.1 < b.1)) (T : Nat) (d : α) :
    (T, d) ∈ debounceEmissions edits ↔
      ∃ pre cur post, edits = pre ++ cur :: post ∧ cur.1 + 300 = T ∧
        cur.2 = d ∧ ∀ e ∈ post, T < e.1 := by
  cases edits with
  | nil =>
    constructor
    · intro hmem
      cases hmem
    · rintro ⟨pre, cur, post, habs, _⟩
      exact absurd habs (by simp)
  | cons e0 rest =>
    obtain ⟨t0, d0⟩ := e0
    have hrest0 : ∀ e ∈ rest, t0 < e.1 := (List.pairwise_cons.mp hch).1
    have hchrest := (List.pairwise_cons.mp hch).2
    have hrun : debounceEmissions ((t0, d0) :: rest) =
        debounceRun rest (some (t0 + 300, d0)) := rfl
    rw [hrun, debounceRun_some_mem rest hchrest (t0 + 300) d0 T d]
    constructor
    · rintro (⟨h1, h2, h3⟩ | ⟨pre, cur, post, heq, h1, h2, h3⟩)
      · exact ⟨[], (t0, d0), rest, rfl, h1.symm, h2.symm,
          fun e he => h1 ▸ h3 e he⟩
      · exact ⟨(t0, d0) :: pre, cur, post, by rw [heq]; rfl, h1, h2, h3⟩
    · rintro ⟨pre, cur, post, heq, h1, h2, h3⟩
      cases pre with
      | nil =>
        rw [List.nil_append] at heq
        injection heq with ha hb
        left
        refine ⟨?_, ?_, ?_⟩
        · rw [← ha] at h1
          exact h1.symm
        · rw [← ha] at h2
          exact h2.symm
        · intro e he
          have hT : T = t0 + 300 := by
            rw [← ha] at h1
            exact h1.symm
          rw [← hT]
          exact h3 e (hb ▸ he)
      | cons p0 pre' =>
        rw [List.cons_append] at heq
        injection heq with ha hb
        right
        exact ⟨pre', cur, post, hb, h1, h2, h3⟩

/-- Claim C6, witness: for edits at 0, 100 and 500 ms, the edit at 0 is
cancelled by the edit at 100, whose payload is synced at 400 ms. -/
theorem debounce_emissions_iff_witness :
    (([(0, "a"), (100, "b"), (500, "c")] : List (Nat × String)).Pairwise
      (fun a b => a.1 < b.1)) ∧
    ((400 : Nat), "b") ∈ debounceEmissions [(0, "a"), (100, "b"), (500, "c")] :=
  have hp : (([(0, "a"), (100, "b"), (500, "c")] : List (Nat × String)).Pairwise
      (fun a b => a.1 < b.1)) := by decide
  ⟨hp, (debounce_emissions_iff [(0, "a"), (100, "b"), (500, "c")] hp 400 "b").mpr
    ⟨[(0, "a")], (100, "b"), [(500, "c")], rfl, rfl, rfl, by decide⟩⟩

end PartyTracker
